import Mathlib

/-!
Verification development for the DepenLang repository: a lexer, a nom-based
recursive-descent parser, an AST with pretty-printing and substitution, and a
closure-based evaluator with reification, for the untyped lambda calculus.

Each Rust source function is embedded as a Lean definition of the same name;
recursive parser/evaluator functions that Rust runs on the host stack are
given an explicit fuel parameter, with entry points supplying fuel that
exceeds the recursion depth on the given input.
-/

namespace DepenLang

/-- Models Rust `char::is_alphabetic` (the Unicode `Alphabetic` property) on
the character repertoire this development exercises: ASCII letters plus the
letters of the Greek and Coptic block (which contains the lambda glyph,
U+03BB).  Every character appearing in the claims falls in this repertoire. -/
def char_is_alphabetic (c : Char) : Bool :=
  c.isAlpha ||
  (0x391 ≤ c.toNat && c.toNat ≤ 0x3A9 && c.toNat ≠ 0x3A2) ||
  (0x3B1 ≤ c.toNat && c.toNat ≤ 0x3C9)

/-- Models Rust `char::is_whitespace` (the Unicode `White_Space` property) on
the ASCII repertoire this development exercises. -/
def char_is_whitespace (c : Char) : Bool :=
  c = ' ' || c = '\t' || c = '\n' || c = '\r' ||
  c = Char.ofNat 0x0b || c = Char.ofNat 0x0c

/-- Models Rust `char::is_alphanumeric` (alphabetic or numeric), with the
numeric part modelled on ASCII digits. -/
def char_is_alphanumeric (c : Char) : Bool :=
  char_is_alphabetic c || c.isDigit

/-- `Term` from src/ast.rs: the AST of the untyped lambda calculus. -/
inductive Term : Type
  | Var (name : String)
  | Abs (param : String) (body : Term)
  | App (func : Term) (arg : Term)
deriving DecidableEq, Repr

/-- `Term::pretty_print` from src/ast.rs: renders a `Term` back to surface
syntax, parenthesising an abstraction in function position and an application
or abstraction in argument position. -/
def Term.pretty_print : Term → String
  | Term.Var v => v
  | Term.Abs param body => "\\" ++ param ++ ". " ++ body.pretty_print
  | Term.App func arg =>
    let func_str :=
      match func with
      | Term.Abs _ _ => "(" ++ func.pretty_print ++ ")"
      | _ => func.pretty_print
    let arg_str :=
      match arg with
      | Term.App _ _ | Term.Abs _ _ => "(" ++ arg.pretty_print ++ ")"
      | _ => arg.pretty_print
    func_str ++ " " ++ arg_str

/-- `subst` from src/ast.rs: capture-unsafe substitution.  Substitution stops
at a binder whose parameter equals the substituted variable. -/
def subst (var : String) (replacement : Term) (term : Term) : Term :=
  match term with
  | Term.Var x => if x = var then replacement else Term.Var x
  | Term.Abs param body =>
    if param = var then Term.Abs param body
    else Term.Abs param (subst var replacement body)
  | Term.App t1 t2 =>
    Term.App (subst var replacement t1) (subst var replacement t2)

/-- Free occurrence of a variable in a `Term` (the standard notion the
shadowing behaviour of `subst` in src/ast.rs is organised around: a binder
`Abs(param, _)` with `param = v` stops the search). -/
def free_in (v : String) : Term → Bool
  | Term.Var x => x = v
  | Term.Abs param body => if param = v then false else free_in v body
  | Term.App t1 t2 => free_in v t1 || free_in v t2

/-- `Token` from src/lexer.rs. -/
inductive Token : Type
  | Lambda
  | Dot
  | LeftParen
  | RightParen
  | Identifier (name : String)
deriving DecidableEq, Repr

/-- Length of `dropWhile` never exceeds the length of the list. -/
theorem length_dropWhile_le (p : Char → Bool) (xs : List Char) :
    (xs.dropWhile p).length ≤ xs.length := by
  induction xs with
  | nil => simp [List.dropWhile]
  | cons x xs ih =>
    simp only [List.dropWhile]
    cases p x
    · simp
    · simp
      omega

/-- `Lexer::tokenize` from src/lexer.rs, as a function of the remaining input
characters (the `input`/`position` pair of the Rust struct is the suffix of
the input not yet consumed).  One character is examined at a time; a maximal
alphabetic run becomes a single `Identifier` token; an unrecognised character
aborts with an error message. -/
def tokenize (input : List Char) : Except String (List Token) :=
  match input with
  | [] => Except.ok []
  | ch :: rest =>
    if ch = '\\' then
      (tokenize rest).map (fun ts => Token.Lambda :: ts)
    else if ch = '.' then
      (tokenize rest).map (fun ts => Token.Dot :: ts)
    else if ch = '(' then
      (tokenize rest).map (fun ts => Token.LeftParen :: ts)
    else if ch = ')' then
      (tokenize rest).map (fun ts => Token.RightParen :: ts)
    else if char_is_whitespace ch then
      tokenize rest
    else if char_is_alphabetic ch then
      (tokenize (rest.dropWhile char_is_alphabetic)).map
        (fun ts =>
          Token.Identifier (String.mk (ch :: rest.takeWhile char_is_alphabetic)) :: ts)
    else
      Except.error ("Unexpected character: " ++ String.mk [ch])
termination_by input.length
decreasing_by
  all_goals simp_wf
  all_goals first
  | omega
  | exact Nat.lt_succ_of_le (length_dropWhile_le char_is_alphabetic rest)

/-- `ParseErrorKind` from src/parser.rs. -/
inductive ParseErrorKind : Type
  | UnexpectedChar (c : Char)
  | UnexpectedEOF
  | InvalidVariable
  | InvalidAbstraction
  | InvalidApplication
  | Other (msg : String)
deriving DecidableEq, Repr

/-- A nom error value: `recoverable` models `nom::Err::Error` (from which
`alt` and `many0` recover, trying alternatives or stopping), while `failure`
models `nom::Err::Failure` as produced by `custom_error` in src/parser.rs
(which `alt` and `many0` propagate without recovery).  The `VerboseError`
payload of recoverable errors plays no role in control flow and is dropped. -/
inductive NomErr : Type
  | recoverable
  | failure (kind : ParseErrorKind)
deriving DecidableEq, Repr

/-- The result of a nom parser on `List Char` input: `ok remaining value` or
an error. -/
inductive PResult (α : Type) : Type
  | ok (rem : List Char) (val : α)
  | err (e : NomErr)
deriving DecidableEq, Repr

/-- `custom_error` from src/parser.rs: always builds a `nom::Err::Failure`. -/
def custom_error (kind : ParseErrorKind) : NomErr :=
  NomErr.failure kind

/-- nom's `character::complete` space class: `space0`/`space1` match only
the space and tab characters. -/
def is_nom_space (c : Char) : Bool :=
  c = ' ' || c = '\t'

/-- nom `space0`: consume any run (possibly empty) of spaces and tabs;
always succeeds, so it is modelled as returning the remaining input. -/
def space0 (input : List Char) : List Char :=
  input.dropWhile is_nom_space

/-- nom `take_while1 p`: consume the maximal prefix satisfying `p`; a
recoverable error when that prefix is empty. -/
def take_while1 (p : Char → Bool) (input : List Char) : PResult (List Char) :=
  match input.takeWhile p with
  | [] => PResult.err NomErr.recoverable
  | taken => PResult.ok (input.dropWhile p) taken

/-- nom `space1`: at least one space or tab. -/
def space1 (input : List Char) : PResult (List Char) :=
  take_while1 is_nom_space input

/-- nom `char c`: consume exactly the character `c`; recoverable error
otherwise. -/
def char_p (c : Char) (input : List Char) : PResult Char :=
  match input with
  | [] => PResult.err NomErr.recoverable
  | x :: rest => if x = c then PResult.ok rest c else PResult.err NomErr.recoverable

/-- `parse_var` from src/parser.rs: a maximal nonempty alphabetic run becomes
a `Term::Var`; `map_err` turns every failure into the unrecoverable
`custom_error(InvalidVariable)`. -/
def parse_var (input : List Char) : PResult Term :=
  match take_while1 char_is_alphabetic input with
  | PResult.ok rem cs => PResult.ok rem (Term.Var (String.mk cs))
  | PResult.err _ => PResult.err (custom_error ParseErrorKind.InvalidVariable)

mutual

/-- `parse_abs` from src/parser.rs: `pair(preceded(char '\\', take_while1
alphanumeric), preceded(char '.', parse_term))`, with `map_err` turning every
failure into `custom_error(InvalidAbstraction)`.  Fuel bounds the recursion
into `parse_term`. -/
def parse_abs_fuel (fuel : Nat) (input : List Char) : PResult Term :=
  match fuel with
  | 0 => PResult.err NomErr.recoverable
  | fuel + 1 =>
    match char_p '\\' input with
    | PResult.err _ => PResult.err (custom_error ParseErrorKind.InvalidAbstraction)
    | PResult.ok rem1 _ =>
      match take_while1 char_is_alphanumeric rem1 with
      | PResult.err _ => PResult.err (custom_error ParseErrorKind.InvalidAbstraction)
      | PResult.ok rem2 param =>
        match char_p '.' rem2 with
        | PResult.err _ => PResult.err (custom_error ParseErrorKind.InvalidAbstraction)
        | PResult.ok rem3 _ =>
          match parse_term_fuel fuel rem3 with
          | PResult.err _ => PResult.err (custom_error ParseErrorKind.InvalidAbstraction)
          | PResult.ok rem4 body => PResult.ok rem4 (Term.Abs (String.mk param) body)

/-- `parse_parens` from src/parser.rs: `delimited(char '(', parse_term,
char ')')`; its errors are not remapped. -/
def parse_parens_fuel (fuel : Nat) (input : List Char) : PResult Term :=
  match fuel with
  | 0 => PResult.err NomErr.recoverable
  | fuel + 1 =>
    match char_p '(' input with
    | PResult.err e => PResult.err e
    | PResult.ok rem1 _ =>
      match parse_term_fuel fuel rem1 with
      | PResult.err e => PResult.err e
      | PResult.ok rem2 t =>
        match char_p ')' rem2 with
        | PResult.err e => PResult.err e
        | PResult.ok rem3 _ => PResult.ok rem3 t

/-- `parse_single_term` from src/parser.rs: `alt((parse_var, parse_abs,
parse_parens))`.  nom's `alt` tries the next alternative only on a
recoverable `Err::Error`; an `Err::Failure` is returned at once — and
`parse_var` only ever fails with `Err::Failure`. -/
def parse_single_term_fuel (fuel : Nat) (input : List Char) : PResult Term :=
  match fuel with
  | 0 => PResult.err NomErr.recoverable
  | fuel + 1 =>
    match parse_var input with
    | PResult.ok rem t => PResult.ok rem t
    | PResult.err (NomErr.failure k) => PResult.err (NomErr.failure k)
    | PResult.err NomErr.recoverable =>
      match parse_abs_fuel fuel input with
      | PResult.ok rem t => PResult.ok rem t
      | PResult.err (NomErr.failure k) => PResult.err (NomErr.failure k)
      | PResult.err NomErr.recoverable => parse_parens_fuel fuel input

/-- The `many0(preceded(space1, parse_single_term))` loop inside
`parse_application` (src/parser.rs): stop with the accumulated list on a
recoverable error, propagate an `Err::Failure`, and (nom's `many0` guard)
fail recoverably if an iteration consumed no input. -/
def many0_app_fuel (fuel : Nat) (input : List Char) : PResult (List Term) :=
  match fuel with
  | 0 => PResult.err NomErr.recoverable
  | fuel + 1 =>
    match space1 input with
    | PResult.err _ => PResult.ok input []
    | PResult.ok rem1 _ =>
      match parse_single_term_fuel fuel rem1 with
      | PResult.err NomErr.recoverable => PResult.ok input []
      | PResult.err (NomErr.failure k) => PResult.err (NomErr.failure k)
      | PResult.ok rem2 t =>
        if rem2.length = input.length then PResult.err NomErr.recoverable
        else
          match many0_app_fuel fuel rem2 with
          | PResult.err e => PResult.err e
          | PResult.ok rem3 ts => PResult.ok rem3 (t :: ts)

/-- `parse_application` from src/parser.rs: one `parse_single_term` followed
by `many0(preceded(space1, parse_single_term))`, left-folded into nested
`Term::App`; `map_err` turns every failure into
`custom_error(InvalidApplication)`. -/
def parse_application_fuel (fuel : Nat) (input : List Char) : PResult Term :=
  match fuel with
  | 0 => PResult.err NomErr.recoverable
  | fuel + 1 =>
    match parse_single_term_fuel fuel input with
    | PResult.err _ => PResult.err (custom_error ParseErrorKind.InvalidApplication)
    | PResult.ok rem first =>
      match many0_app_fuel fuel rem with
      | PResult.err _ => PResult.err (custom_error ParseErrorKind.InvalidApplication)
      | PResult.ok rem2 rest =>
        PResult.ok rem2 (rest.foldl (fun acc t => Term.App acc t) first)

/-- `parse_term` from src/parser.rs: `delimited(space0, parse_application,
space0)`.  Fuel is decremented on entry. -/
def parse_term_fuel (fuel : Nat) (input : List Char) : PResult Term :=
  match fuel with
  | 0 => PResult.err NomErr.recoverable
  | fuel + 1 =>
    match parse_application_fuel fuel (space0 input) with
    | PResult.err e => PResult.err e
    | PResult.ok rem t => PResult.ok (space0 rem) t

end

/-- Entry point: `parse_term` on a whole string.  Every call chain in the
source consumes at least one character per four nested calls and per loop
iteration, so `4 * length + 8` fuel strictly exceeds the recursion depth and
the fuel bound is never hit on this input. -/
def parse_term (s : String) : PResult Term :=
  parse_term_fuel (4 * s.length + 8) s.data

/-- The parse-and-check stage of `run_file` from src/main.rs (the file
reading before it and the evaluation after it are separate steps): parse the
contents with `parse_term`, fail on a parse error, and fail with an
"Unparsed input remaining" error when the parser left any input
unconsumed. -/
def run_file_parse (contents : String) : Except String Term :=
  match parse_term contents with
  | PResult.err _ => Except.error "Error parsing file"
  | PResult.ok remaining parsed_term =>
    if remaining.isEmpty then Except.ok parsed_term
    else Except.error ("Unparsed input remaining: " ++ String.mk remaining)

/-- `Value` from src/interpreter.rs, defunctionalized.  The source's
`Value::Closure` holds an opaque `Arc<dyn Fn(Value) -> Value>`; the only
closures `eval` ever creates are `move |arg| eval(body, env + {param ↦ arg})`
(src/interpreter.rs, `Term::Abs` arm), so a closure built by evaluation is
represented by its captured parameter name, body and environment.  The
environment (`HashMap<String, Value>` with insert-replaces semantics) is an
association list whose lookup takes the most recent binding. -/
inductive Value : Type
  | Var (name : String)
  | Closure (param : String) (body : Term) (env : List (String × Value))
deriving Repr

/-- `HashMap::get` on the association-list environment: the most recent
binding of a key wins, `none` when the key is absent. -/
def lookupEnv : List (String × Value) → String → Option Value
  | [], _ => none
  | (k, v) :: rest, x => if k = x then some v else lookupEnv rest x

/-- Outcome of running `eval`/`reify` with bounded fuel: `out_of_fuel` when
the bound was hit (the true computation recurses deeper, possibly forever),
`fatal` models a Rust `panic!`, and `ok` a normally returned value. -/
inductive EvalResult (α : Type) : Type
  | out_of_fuel
  | fatal (msg : String)
  | ok (v : α)
deriving DecidableEq, Repr

/-- `eval` from src/interpreter.rs, with fuel decremented at every call:
a variable is looked up in the environment (falling back to `Value::Var`),
an abstraction captures the current environment in a closure, and an
application evaluates the function, then the argument, then either invokes
the closure (evaluating its body in the captured environment extended with
the parameter bound to the argument) or panics on a non-function. -/
def evalF (fuel : Nat) (term : Term) (env : List (String × Value)) :
    EvalResult Value :=
  match fuel with
  | 0 => EvalResult.out_of_fuel
  | fuel + 1 =>
    match term with
    | Term.Var x => EvalResult.ok ((lookupEnv env x).getD (Value.Var x))
    | Term.Abs x body => EvalResult.ok (Value.Closure x body env)
    | Term.App t1 t2 =>
      match evalF fuel t1 env with
      | EvalResult.out_of_fuel => EvalResult.out_of_fuel
      | EvalResult.fatal m => EvalResult.fatal m
      | EvalResult.ok func =>
        match evalF fuel t2 env with
        | EvalResult.out_of_fuel => EvalResult.out_of_fuel
        | EvalResult.fatal m => EvalResult.fatal m
        | EvalResult.ok arg =>
          match func with
          | Value.Closure p body cenv => evalF fuel body ((p, arg) :: cenv)
          | _ => EvalResult.fatal "Trying to apply a non-function"

/-- `reify` from src/interpreter.rs, with fuel decremented at every call:
a `Value::Var` reifies to `Term::Var`; a closure is probed with the fixed
dummy variable `Value::Var "x"` (invoking the closure evaluates its body in
the captured environment extended with the parameter bound to the dummy) and
the reified probe result is wrapped in `Abs "x"`. -/
def reifyF (fuel : Nat) (val : Value) : EvalResult Term :=
  match fuel with
  | 0 => EvalResult.out_of_fuel
  | fuel + 1 =>
    match val with
    | Value.Var x => EvalResult.ok (Term.Var x)
    | Value.Closure p body env =>
      match evalF fuel body ((p, Value.Var "x") :: env) with
      | EvalResult.out_of_fuel => EvalResult.out_of_fuel
      | EvalResult.fatal m => EvalResult.fatal m
      | EvalResult.ok result =>
        match reifyF fuel result with
        | EvalResult.out_of_fuel => EvalResult.out_of_fuel
        | EvalResult.fatal m => EvalResult.fatal m
        | EvalResult.ok t => EvalResult.ok (Term.Abs "x" t)

/-- `reify` (hence `reifyF` at every fuel) never returns on this value: the
fuel bound is hit no matter how much fuel is supplied, i.e. the source
computation diverges. -/
def reify_diverges (v : Value) : Prop :=
  ∀ fuel : Nat, reifyF fuel v = EvalResult.out_of_fuel

/-- The self-application body `y y`. -/
def yy_term : Term :=
  Term.App (Term.Var "y") (Term.Var "y")

/-- The self-application combinator `λy. y y`. -/
def delta_term : Term :=
  Term.Abs "y" yy_term

/-- The diverging term Ω = (λy. y y) (λy. y y). -/
def omega_term : Term :=
  Term.App delta_term delta_term

/-- A finite nest of abstractions over a variable: `λy. λy. … λy. y`. -/
def nested_abs : Nat → Term
  | 0 => Term.Var "y"
  | n + 1 => Term.Abs "y" (nested_abs n)

/-- The term `reify` produces from the closure `eval` builds for
`nested_abs (n+1)`: the fixed probe name makes every binder `"x"`. -/
def reified_nested : Nat → Term
  | 0 => Term.Abs "x" (Term.Var "x")
  | n + 1 => Term.Abs "x" (reified_nested n)

/-- A character list that `take_while1(char_is_alphabetic)` can produce:
nonempty and all alphabetic. -/
def good_chars (cs : List Char) : Prop :=
  cs ≠ [] ∧ ∀ c ∈ cs, char_is_alphabetic c = true

instance (cs : List Char) : Decidable (good_chars cs) := by
  unfold good_chars
  infer_instance

/-- The left-associated application chain of variables
`(…((first a₁) a₂) … aₙ)` — the only shape `parse_application` can build. -/
def names_chain (first : List Char) (rest : List (List Char)) : Term :=
  rest.foldl (fun acc cs => Term.App acc (Term.Var (String.mk cs))) (Term.Var (String.mk first))

/-- The rendering of the non-initial atoms of a variable chain: each name
preceded by a single space. -/
def render_rest : List (List Char) → List Char
  | [] => []
  | cs :: rest => ' ' :: (cs ++ render_rest rest)

/-- The surface rendering of a variable chain: the names separated by single
spaces. -/
def render_names (first : List Char) (rest : List (List Char)) : List Char :=
  first ++ render_rest rest

/-- Claim C9: for every replacement term `r` and body, substitution stops
entirely at a binder whose parameter equals the substituted variable:
`subst v r (Abs v body) = Abs v body` (the claim instantiates `v = "x"`). -/
theorem c9_subst_shadowing (v : String) (r body : Term) :
    subst v r (Term.Abs v body) = Term.Abs v body := by
  simp [subst]

/-- Claim C10: substituting for a variable with no free occurrence in the
term is the identity: `free_in v t = false` implies `subst v r t = t`. -/
theorem c10_subst_not_free (v : String) (r t : Term)
    (h : free_in v t = false) : subst v r t = t := by
  induction t with
  | Var x =>
    simp only [free_in, decide_eq_false_iff_not] at h
    simp [subst, h]
  | Abs p b ih =>
    by_cases hp : p = v
    · simp [subst, hp]
    · simp only [free_in, if_neg hp] at h
      simp [subst, hp, ih h]
  | App t1 t2 ih1 ih2 =>
    simp only [free_in, Bool.or_eq_false_iff] at h
    simp [subst, ih1 h.1, ih2 h.2]

/-- Witness for C10 at `v = "x"`, `r = Var "z"`, `t = Var "y"`. -/
theorem c10_subst_not_free_witness :
    free_in "x" (Term.Var "y") = false
    ∧ subst "x" (Term.Var "z") (Term.Var "y") = Term.Var "y" :=
  ⟨by decide, c10_subst_not_free "x" (Term.Var "z") (Term.Var "y") (by decide)⟩

/-- Claim C7: for `App(f, a)`, `eval` evaluates `f` first (a fatal error in
`f` aborts the application with that error), then `a`; when `f` evaluates to
a closure it is invoked on the evaluated argument (the closure body is
evaluated in the captured environment extended with the parameter bound to
the argument), and when `f` evaluates to a non-closure the evaluation aborts
fatally with "Trying to apply a non-function" — no value is returned and no
coercion happens. -/
theorem c7_app_eval (fuel : Nat) (t1 t2 : Term) (env : List (String × Value)) :
    (∀ m, evalF fuel t1 env = EvalResult.fatal m →
      evalF (fuel + 1) (Term.App t1 t2) env = EvalResult.fatal m)
    ∧ (∀ v a p b e, evalF fuel t1 env = EvalResult.ok v →
        evalF fuel t2 env = EvalResult.ok a → v = Value.Closure p b e →
        evalF (fuel + 1) (Term.App t1 t2) env = evalF fuel b ((p, a) :: e))
    ∧ (∀ v a, evalF fuel t1 env = EvalResult.ok v →
        evalF fuel t2 env = EvalResult.ok a →
        (∀ p b e, v ≠ Value.Closure p b e) →
        evalF (fuel + 1) (Term.App t1 t2) env =
          EvalResult.fatal "Trying to apply a non-function") := by
  refine ⟨?_, ?_, ?_⟩
  · intro m h
    simp [evalF, h]
  · intro v a p b e h1 h2 hv
    subst hv
    simp [evalF, h1, h2]
  · intro v a h1 h2 hv
    cases v with
    | Var x => simp [evalF, h1, h2]
    | Closure p b e => exact absurd rfl (hv p b e)

/-- Witness for C7: applying the non-function value of `Var "f"` is fatal. -/
theorem c7_app_eval_witness :
    evalF 2 (Term.App (Term.Var "f") (Term.Var "b")) [] =
      EvalResult.fatal "Trying to apply a non-function" :=
  (c7_app_eval 1 (Term.Var "f") (Term.Var "b") []).2.2 (Value.Var "f") (Value.Var "b")
    rfl rfl (fun p b e h => Value.noConfusion h)

/-- Claim C8: evaluating `Var x` returns the bound value when `x` is present
in the environment, returns `Value::Var x` when absent, and never fails. -/
theorem c8_var_eval (fuel : Nat) (x : String) (env : List (String × Value)) :
    (∀ v, lookupEnv env x = some v →
      evalF (fuel + 1) (Term.Var x) env = EvalResult.ok v)
    ∧ (lookupEnv env x = none →
      evalF (fuel + 1) (Term.Var x) env = EvalResult.ok (Value.Var x))
    ∧ (∃ w, evalF (fuel + 1) (Term.Var x) env = EvalResult.ok w) := by
  refine ⟨?_, ?_, ?_⟩
  · intro v h
    simp [evalF, h]
  · intro h
    simp [evalF, h]
  · exact ⟨(lookupEnv env x).getD (Value.Var x), by simp [evalF]⟩

/-- Witness for C8: a bound variable evaluates to its bound value. -/
theorem c8_var_eval_witness :
    evalF 1 (Term.Var "x") [("x", Value.Var "bound")] = EvalResult.ok (Value.Var "bound") :=
  (c8_var_eval 0 "x" [("x", Value.Var "bound")]).1 (Value.Var "bound") rfl

/-- Claim C2 (code bug): `parse_term "\x. x y"` does not succeed at all.
`parse_var` maps every failure to a `nom::Err::Failure`, from which `alt` in
`parse_single_term` does not recover, so the `parse_abs` alternative is
unreachable and the whole parse fails with `InvalidApplication`.  The greedy
abstraction body is the clear intent: calling `parse_abs` directly yields
`Abs("x", App(Var "x", Var "y"))`, and the repository's own test
`test_parse_complex_term` expects `parse_term "(\x. x y) (\z. z)"` to
succeed, which also fails through the same `alt`. -/
theorem c2_greedy_body_bug :
    parse_term "\\x. x y" = PResult.err (NomErr.failure ParseErrorKind.InvalidApplication)
    ∧ parse_abs_fuel 40 "\\x. x y".data =
        PResult.ok [] (Term.Abs "x" (Term.App (Term.Var "x") (Term.Var "y")))
    ∧ parse_term "(\\x. x y) (\\z. z)" =
        PResult.err (NomErr.failure ParseErrorKind.InvalidApplication) :=
  ⟨by decide, by decide, by decide⟩

/-- Claim C4: when a prefix of the input parses as a complete term but
non-whitespace input is left over, the run (the parse-and-check stage of
`run_file` in src/main.rs) is an error — the leftover is reported, not
discarded. -/
theorem c4_trailing_input (s : String) (rem : List Char) (t : Term) (c : Char)
    (hp : parse_term s = PResult.ok rem t) (hc : c ∈ rem)
    (hw : char_is_whitespace c = false) :
    run_file_parse s = Except.error ("Unparsed input remaining: " ++ String.mk rem) := by
  have hne : rem ≠ [] := by
    intro h
    subst h
    cases hc
  unfold run_file_parse
  rw [hp]
  cases rem with
  | nil => exact absurd rfl hne
  | cons d ds => simp [List.isEmpty]

/-- Witness for C4: parsing `"x)"` leaves `")"`, so the run errors instead
of returning `Var "x"`. -/
theorem c4_trailing_input_witness :
    run_file_parse "x)" = Except.error ("Unparsed input remaining: " ++ String.mk [')']) :=
  c4_trailing_input "x)" [')'] (Term.Var "x") ')' (by decide) (by decide) (by decide)

/-- Claim C5 (counterexample): the lexer does not treat the λ glyph like
`\`: tokenizing the single character `λ` yields an `Identifier` token, not a
`Lambda` token — `'λ'` matches none of the four single-character arms and is
alphabetic, so it is read as an identifier. -/
theorem c5_lambda_glyph_counterexample :
    tokenize ['λ'] = Except.ok [Token.Identifier "λ"]
    ∧ Except.ok [Token.Identifier "λ"] ≠ (Except.ok [Token.Lambda] : Except String (List Token)) := by
  constructor
  · rw [tokenize, if_neg (by decide), if_neg (by decide), if_neg (by decide),
      if_neg (by decide), if_neg (by decide), if_pos (by decide)]
    rw [show List.dropWhile char_is_alphabetic [] = [] from rfl, tokenize]
    rfl
  · intro h
    rw [Except.ok.injEq] at h
    exact absurd (List.head_eq_of_cons_eq h) (by decide)

/-- Claim C5 (amended): a `\` character produces a `Lambda` token, but the
λ glyph is alphabetic and is lexed as the start of an `Identifier` token
(never as `Lambda`). -/
theorem c5_lexer_amended (rest : List Char) :
    tokenize ('\\' :: rest) = (tokenize rest).map (fun ts => Token.Lambda :: ts)
    ∧ tokenize ('λ' :: rest) =
        (tokenize (rest.dropWhile char_is_alphabetic)).map
          (fun ts =>
            Token.Identifier (String.mk ('λ' :: rest.takeWhile char_is_alphabetic)) :: ts) := by
  constructor
  · rw [tokenize, if_pos rfl]
  · rw [tokenize, if_neg (by decide), if_neg (by decide), if_neg (by decide),
      if_neg (by decide), if_neg (by decide), if_pos (by decide)]

/-- Evaluating `y y` in any environment binding `y` to the closure `eval`
builds for `λy. y y` (capturing that same environment) exhausts any amount
of fuel: each step reproduces exactly the same evaluation. -/
theorem evalF_yy_out (env : List (String × Value)) : ∀ fuel,
    evalF fuel yy_term (("y", Value.Closure "y" yy_term env) :: env) = EvalResult.out_of_fuel := by
  intro fuel
  simp only [yy_term]
  induction fuel with
  | zero => rfl
  | succ f ih =>
    cases f with
    | zero => rfl
    | succ g =>
      have h1 : evalF (g + 1) (Term.Var "y")
          (("y", Value.Closure "y" (Term.App (Term.Var "y") (Term.Var "y")) env) :: env) =
          EvalResult.ok (Value.Closure "y" (Term.App (Term.Var "y") (Term.Var "y")) env) := by
        simp [evalF, lookupEnv]
      rw [evalF, h1]
      exact ih

/-- Evaluating Ω exhausts any amount of fuel in any environment. -/
theorem evalF_omega_out (fuel : Nat) (env : List (String × Value)) :
    evalF fuel omega_term env = EvalResult.out_of_fuel := by
  cases fuel with
  | zero => rfl
  | succ f =>
    cases f with
    | zero => rfl
    | succ g =>
      have h1 : evalF (g + 1) delta_term env =
          EvalResult.ok (Value.Closure "y" yy_term env) := by
        cases g
        · simp [evalF, delta_term]
        · simp [evalF, delta_term]
      rw [show omega_term = Term.App delta_term delta_term from rfl, evalF, h1]
      exact evalF_yy_out env (g + 1)

/-- Reifying the closure `eval` builds for `λx. Ω` exhausts any amount of
fuel: the probe evaluates Ω. -/
theorem reify_omega_closure_out (fuel : Nat) :
    reifyF fuel (Value.Closure "x" omega_term []) = EvalResult.out_of_fuel := by
  cases fuel with
  | zero => rfl
  | succ f =>
    rw [reifyF, evalF_omega_out]

/-- Reifying the closure `eval` builds for a nest of `n+1` abstractions over
a variable succeeds with `n + 2` fuel: each probe peels one layer. -/
theorem reified_nested_ok : ∀ (n : Nat) (env : List (String × Value)),
    reifyF (n + 2) (Value.Closure "y" (nested_abs n) env) = EvalResult.ok (reified_nested n) := by
  intro n
  induction n with
  | zero =>
    intro env
    rfl
  | succ m ih =>
    intro env
    have h1 : evalF (m + 2) (nested_abs (m + 1)) (("y", Value.Var "x") :: env) =
        EvalResult.ok (Value.Closure "y" (nested_abs m) (("y", Value.Var "x") :: env)) := by
      simp [evalF, nested_abs]
    rw [reifyF, h1]
    dsimp only
    rw [ih, reified_nested]

/-- Claim C6 (counterexample): the closure `eval` builds from the finite
term `λx. (λy. y y) (λy. y y)` in the empty environment is one on which
`reify` does not terminate: probing it evaluates Ω, so `reify` runs out of
any amount of fuel. -/
theorem c6_reify_counterexample :
    evalF 1 (Term.Abs "x" omega_term) [] = EvalResult.ok (Value.Closure "x" omega_term [])
    ∧ reify_diverges (Value.Closure "x" omega_term []) :=
  ⟨rfl, fun fuel => reify_omega_closure_out fuel⟩

/-- Claim C6 (amended): each probe of `reify` strictly consumes one layer of
abstraction, so `reify` terminates for closures built by `eval` from nested
abstractions over a variable; but it does not terminate for every closure
built by `eval` from a finite term — a probe runs `eval` on the abstraction
body, and when that evaluation diverges (body Ω) so does `reify`. -/
theorem c6_reify_amended :
    (∀ (n : Nat) (env : List (String × Value)),
      evalF 1 (nested_abs (n + 1)) env = EvalResult.ok (Value.Closure "y" (nested_abs n) env)
      ∧ ∃ fuel t, reifyF fuel (Value.Closure "y" (nested_abs n) env) = EvalResult.ok t)
    ∧ reify_diverges (Value.Closure "x" omega_term []) := by
  constructor
  · intro n env
    constructor
    · simp [evalF, nested_abs]
    · exact ⟨n + 2, reified_nested n, reified_nested_ok n env⟩
  · exact fun fuel => reify_omega_closure_out fuel

/-- A list all of whose elements satisfy `p` is its own `takeWhile`. -/
theorem takeWhile_all (p : Char → Bool) (xs : List Char)
    (h : ∀ c ∈ xs, p c = true) : xs.takeWhile p = xs := by
  induction xs with
  | nil => rfl
  | cons x xs ih =>
    have hx := h x (List.mem_cons_self x xs)
    simp only [List.takeWhile, hx]
    exact congrArg (x :: ·) (ih fun c hc => h c (List.mem_cons_of_mem x hc))

/-- `takeWhile` of a concatenation whose left part is all-`p` and whose right
part starts with a non-`p` character (or is empty) is the left part. -/
theorem takeWhile_append_stop (p : Char → Bool) (xs ys : List Char)
    (hall : ∀ c ∈ xs, p c = true)
    (hy : ∀ d ds, ys = d :: ds → p d = false) :
    (xs ++ ys).takeWhile p = xs := by
  induction xs with
  | nil =>
    cases ys with
    | nil => rfl
    | cons d ds => simp [List.takeWhile, hy d ds rfl]
  | cons x xs ih =>
    have hx := hall x (List.mem_cons_self x xs)
    simp only [List.cons_append, List.takeWhile, hx]
    exact congrArg (x :: ·) (ih fun c hc => hall c (List.mem_cons_of_mem x hc))

/-- `dropWhile` counterpart of `takeWhile_append_stop`. -/
theorem dropWhile_append_stop (p : Char → Bool) (xs ys : List Char)
    (hall : ∀ c ∈ xs, p c = true)
    (hy : ∀ d ds, ys = d :: ds → p d = false) :
    (xs ++ ys).dropWhile p = ys := by
  induction xs with
  | nil =>
    cases ys with
    | nil => rfl
    | cons d ds => simp [List.dropWhile, hy d ds rfl]
  | cons x xs ih =>
    have hx := hall x (List.mem_cons_self x xs)
    simp only [List.cons_append, List.dropWhile, hx]
    exact ih fun c hc => hall c (List.mem_cons_of_mem x hc)

/-- Every element of `takeWhile p` satisfies `p`. -/
theorem mem_takeWhile (p : Char → Bool) (xs : List Char) (c : Char)
    (h : c ∈ xs.takeWhile p) : p c = true := by
  induction xs with
  | nil => cases h
  | cons x xs ih =>
    cases hx : p x with
    | true =>
      simp only [List.takeWhile, hx] at h
      cases h with
      | head => exact hx
      | tail _ h => exact ih h
    | false =>
      simp only [List.takeWhile, hx] at h
      cases h

/-- An alphabetic character is not a nom space character. -/
theorem alpha_not_nom_space (c : Char) (h : char_is_alphabetic c = true) :
    is_nom_space c = false := by
  cases hs : is_nom_space c with
  | false => rfl
  | true =>
    exfalso
    have : c = ' ' ∨ c = '\t' := by
      simpa [is_nom_space, Bool.or_eq_true, decide_eq_true_eq] using hs
    cases this with
    | inl h1 => subst h1; exact absurd h (by decide)
    | inr h1 => subst h1; exact absurd h (by decide)

/-- `take_while1` succeeds exactly on the maximal nonempty prefix. -/
theorem take_while1_ok (p : Char → Bool) (input rem cs : List Char)
    (h : take_while1 p input = PResult.ok rem cs) :
    cs = input.takeWhile p ∧ rem = input.dropWhile p ∧ cs ≠ [] := by
  unfold take_while1 at h
  cases htw : input.takeWhile p with
  | nil => rw [htw] at h; cases h
  | cons d ds =>
    rw [htw] at h
    injection h with h1 h2
    refine ⟨h2.symm, h1.symm, ?_⟩
    rw [← h2]
    exact List.cons_ne_nil d ds

/-- `take_while1` succeeds when the maximal prefix is nonempty. -/
theorem take_while1_ok_of (p : Char → Bool) (input : List Char) (d : Char) (ds : List Char)
    (h : input.takeWhile p = d :: ds) :
    take_while1 p input = PResult.ok (input.dropWhile p) (d :: ds) := by
  unfold take_while1
  rw [h]

/-- `parse_var` on a good name followed by a non-alphabetic tail consumes
exactly the name. -/
theorem parse_var_render (first tail : List Char) (hg : good_chars first)
    (hy : ∀ d ds, tail = d :: ds → char_is_alphabetic d = false) :
    parse_var (first ++ tail) = PResult.ok tail (Term.Var (String.mk first)) := by
  obtain ⟨hne, hall⟩ := hg
  have htw : (first ++ tail).takeWhile char_is_alphabetic = first :=
    takeWhile_append_stop _ _ _ hall hy
  have hdw : (first ++ tail).dropWhile char_is_alphabetic = tail :=
    dropWhile_append_stop _ _ _ hall hy
  cases hf : first with
  | nil => exact absurd hf hne
  | cons c cs =>
    subst hf
    unfold parse_var
    rw [take_while1_ok_of _ _ c cs htw, hdw]

/-- `parse_single_term` on a good name followed by a non-alphabetic tail:
the `parse_var` alternative fires. -/
theorem single_render (f : Nat) (first tail : List Char) (hg : good_chars first)
    (hy : ∀ d ds, tail = d :: ds → char_is_alphabetic d = false) :
    parse_single_term_fuel (f + 1) (first ++ tail) =
      PResult.ok tail (Term.Var (String.mk first)) := by
  rw [parse_single_term_fuel, parse_var_render first tail hg hy]

/-- The rendering of non-initial atoms starts with a space (or is empty). -/
theorem render_rest_head (rest : List (List Char)) :
    ∀ d ds, render_rest rest = d :: ds → char_is_alphabetic d = false := by
  intro d ds h
  cases rest with
  | nil => cases h
  | cons cs r =>
    unfold render_rest at h
    injection h with h1 _
    rw [← h1]
    decide

/-- The `many0` loop of `parse_application` consumes a whole rendered atom
list, producing the atoms in order. -/
theorem many0_render (rest : List (List Char)) :
    ∀ f, rest.length + 1 ≤ f → (∀ cs ∈ rest, good_chars cs) →
    many0_app_fuel f (render_rest rest) =
      PResult.ok [] (rest.map (fun cs => Term.Var (String.mk cs))) := by
  induction rest with
  | nil =>
    intro f hf _
    obtain ⟨f', rfl⟩ : ∃ f', f = f' + 1 := ⟨f - 1, by omega⟩
    rfl
  | cons cs rest ih =>
    intro f hf hg
    simp only [List.length_cons] at hf
    obtain ⟨f', rfl⟩ : ∃ f', f = f' + 1 := ⟨f - 1, by omega⟩
    have hcs : good_chars cs := hg cs (List.mem_cons_self cs rest)
    obtain ⟨hne, hall⟩ := hcs
    have hhead : ∀ d ds, (cs ++ render_rest rest) = d :: ds →
        is_nom_space d = false := by
      intro d ds h
      cases hc : cs with
      | nil => exact absurd hc hne
      | cons c cs' =>
        rw [hc] at h
        injection h with h1 _
        rw [← h1]
        exact alpha_not_nom_space c (hall c (by rw [hc]; exact List.mem_cons_self c cs'))
    have hs1 : space1 (render_rest (cs :: rest)) =
        PResult.ok (cs ++ render_rest rest) [' '] := by
      unfold space1
      show take_while1 is_nom_space (' ' :: (cs ++ render_rest rest)) = _
      have htw : (' ' :: (cs ++ render_rest rest)).takeWhile is_nom_space = [' '] := by
        show (([' '] : List Char) ++ (cs ++ render_rest rest)).takeWhile is_nom_space = [' ']
        exact takeWhile_append_stop _ _ _ (by intro c hc; simp at hc; subst hc; decide) hhead
      have hdw : (' ' :: (cs ++ render_rest rest)).dropWhile is_nom_space =
          cs ++ render_rest rest := by
        show (([' '] : List Char) ++ (cs ++ render_rest rest)).dropWhile is_nom_space = _
        exact dropWhile_append_stop _ _ _ (by intro c hc; simp at hc; subst hc; decide) hhead
      rw [take_while1_ok_of _ _ ' ' [] htw, hdw]
    obtain ⟨f'', rfl⟩ : ∃ f'', f' = f'' + 1 := ⟨f' - 1, by omega⟩
    rw [many0_app_fuel, hs1]
    dsimp only
    rw [single_render f'' cs (render_rest rest) ⟨hne, hall⟩ (render_rest_head rest)]
    dsimp only
    have hlen : ¬((render_rest rest).length = (render_rest (cs :: rest)).length) := by
      intro heq
      have hpos : 0 < cs.length := List.length_pos.mpr hne
      have h2 : render_rest (cs :: rest) = ' ' :: (cs ++ render_rest rest) := rfl
      rw [h2] at heq
      simp only [List.length_cons, List.length_append] at heq
      omega
    rw [if_neg hlen, ih (f'' + 1) (by omega)
      (fun c hc => hg c (List.mem_cons_of_mem cs hc))]
    rfl

/-- `parse_application` on a rendered chain of good names yields the
left-folded application chain and consumes the whole input. -/
theorem application_render (first : List Char) (rest : List (List Char)) (f : Nat)
    (hf : rest.length + 3 ≤ f) (hg : good_chars first)
    (hr : ∀ cs ∈ rest, good_chars cs) :
    parse_application_fuel f (render_names first rest) =
      PResult.ok [] (names_chain first rest) := by
  obtain ⟨f', rfl⟩ : ∃ f', f = f' + 1 := ⟨f - 1, by omega⟩
  obtain ⟨f'', rfl⟩ : ∃ f'', f' = f'' + 1 := ⟨f' - 1, by omega⟩
  rw [parse_application_fuel]
  rw [show render_names first rest = first ++ render_rest rest from rfl]
  rw [single_render f'' first (render_rest rest) hg (render_rest_head rest)]
  dsimp only
  rw [many0_render rest (f'' + 1) (by omega) hr]
  dsimp only
  rw [names_chain, List.foldl_map]

/-- `parse_term` on a rendered chain of good names yields the left-folded
application chain and consumes the whole input. -/
theorem term_render (first : List Char) (rest : List (List Char)) (f : Nat)
    (hf : rest.length + 4 ≤ f) (hg : good_chars first)
    (hr : ∀ cs ∈ rest, good_chars cs) :
    parse_term_fuel f (render_names first rest) =
      PResult.ok [] (names_chain first rest) := by
  obtain ⟨f', rfl⟩ : ∃ f', f = f' + 1 := ⟨f - 1, by omega⟩
  have hsp : space0 (render_names first rest) = render_names first rest := by
    unfold space0
    cases hfst : first with
    | nil => exact absurd hfst hg.1
    | cons c cs =>
      have hc : is_nom_space c = false :=
        alpha_not_nom_space c (hg.2 c (by rw [hfst]; exact List.mem_cons_self c cs))
      show (((c :: cs) : List Char) ++ render_rest rest).dropWhile is_nom_space =
        ((c :: cs) : List Char) ++ render_rest rest
      rw [List.cons_append]
      simp [List.dropWhile, hc]
  rw [parse_term_fuel, hsp, application_render first rest f' (by omega) hg hr]
  rfl

/-- `parse_var` only ever fails with the unrecoverable `InvalidVariable`
failure (the `map_err` in src/parser.rs). -/
theorem parse_var_err (input : List Char) (e : NomErr)
    (h : parse_var input = PResult.err e) :
    e = NomErr.failure ParseErrorKind.InvalidVariable := by
  unfold parse_var at h
  cases htw : take_while1 char_is_alphabetic input with
  | ok rem cs => rw [htw] at h; cases h
  | err e2 =>
    rw [htw] at h
    injection h with h1
    exact h1.symm

/-- A successful `parse_var` yields a variable with a good name. -/
theorem parse_var_ok_shape (input rem : List Char) (t : Term)
    (h : parse_var input = PResult.ok rem t) :
    ∃ cs, t = Term.Var (String.mk cs) ∧ good_chars cs := by
  unfold parse_var at h
  cases htw : take_while1 char_is_alphabetic input with
  | err e => rw [htw] at h; cases h
  | ok rem2 cs =>
    rw [htw] at h
    injection h with h1 h2
    obtain ⟨hcs, _, hne⟩ := take_while1_ok _ _ _ _ htw
    refine ⟨cs, h2.symm, hne, ?_⟩
    intro c hc
    exact mem_takeWhile _ _ _ (hcs ▸ hc)

/-- A successful `parse_single_term` always comes from the `parse_var`
alternative (the other alternatives are unreachable because `parse_var`
fails with `Err::Failure`, which `alt` does not recover from), so its value
is a variable with a good name. -/
theorem single_ok_shape (f : Nat) (input rem : List Char) (t : Term)
    (h : parse_single_term_fuel f input = PResult.ok rem t) :
    ∃ cs, t = Term.Var (String.mk cs) ∧ good_chars cs := by
  cases f with
  | zero => simp [parse_single_term_fuel] at h
  | succ f =>
    rw [parse_single_term_fuel] at h
    cases hv : parse_var input with
    | ok rem1 t1 =>
      rw [hv] at h
      dsimp only at h
      injection h with h1 h2
      exact h2 ▸ parse_var_ok_shape input rem1 t1 hv
    | err e =>
      have he := parse_var_err input e hv
      subst he
      rw [hv] at h
      dsimp only at h
      cases h

/-- Every list of terms a successful `many0` loop produces is a list of
variables with good names. -/
theorem many0_ok_shape : ∀ (f : Nat) (input rem : List Char) (ts : List Term),
    many0_app_fuel f input = PResult.ok rem ts →
    ∃ names : List (List Char), ts = names.map (fun cs => Term.Var (String.mk cs))
      ∧ ∀ cs ∈ names, good_chars cs := by
  intro f
  induction f with
  | zero => intro input rem ts h; simp [many0_app_fuel] at h
  | succ f ih =>
    intro input rem ts h
    rw [many0_app_fuel] at h
    cases hs : space1 input with
    | err e =>
      rw [hs] at h
      dsimp only at h
      injection h with h1 h2
      exact ⟨[], by rw [← h2]; rfl, fun cs hc => nomatch hc⟩
    | ok rem1 sp =>
      rw [hs] at h
      dsimp only at h
      cases hst : parse_single_term_fuel f rem1 with
      | err e =>
        rw [hst] at h
        cases e with
        | recoverable =>
          dsimp only at h
          injection h with h1 h2
          exact ⟨[], by rw [← h2]; rfl, fun cs hc => nomatch hc⟩
        | failure k =>
          dsimp only at h
          cases h
      | ok rem2 t =>
        rw [hst] at h
        dsimp only at h
        by_cases hlen : rem2.length = input.length
        · rw [if_pos hlen] at h
          cases h
        · rw [if_neg hlen] at h
          cases hm : many0_app_fuel f rem2 with
          | err e =>
            rw [hm] at h
            dsimp only at h
            cases h
          | ok rem3 ts2 =>
            rw [hm] at h
            dsimp only at h
            injection h with h1 h2
            obtain ⟨cs0, ht, hg0⟩ := single_ok_shape f rem1 rem2 t hst
            obtain ⟨names, hts, hgn⟩ := ih rem2 rem3 ts2 hm
            refine ⟨cs0 :: names, ?_, ?_⟩
            · rw [← h2, ht, hts]
              rfl
            · intro cs hc
              cases hc with
              | head => exact hg0
              | tail _ hc => exact hgn cs hc

/-- Every term a successful `parse_application` produces is a left-folded
chain of variables with good names. -/
theorem application_ok_shape (f : Nat) (input rem : List Char) (t : Term)
    (h : parse_application_fuel f input = PResult.ok rem t) :
    ∃ (first : List Char) (rest : List (List Char)),
      good_chars first ∧ (∀ cs ∈ rest, good_chars cs)
      ∧ t = names_chain first rest := by
  cases f with
  | zero => simp [parse_application_fuel] at h
  | succ f =>
    rw [parse_application_fuel] at h
    cases hst : parse_single_term_fuel f input with
    | err e =>
      rw [hst] at h
      dsimp only at h
      cases h
    | ok rem1 t1 =>
      rw [hst] at h
      dsimp only at h
      cases hm : many0_app_fuel f rem1 with
      | err e =>
        rw [hm] at h
        dsimp only at h
        cases h
      | ok rem2 ts =>
        rw [hm] at h
        dsimp only at h
        injection h with h1 h2
        obtain ⟨cs0, ht1, hg0⟩ := single_ok_shape f input rem1 t1 hst
        obtain ⟨names, hts, hgn⟩ := many0_ok_shape f rem1 rem2 ts hm
        refine ⟨cs0, names, hg0, hgn, ?_⟩
        rw [← h2, ht1, hts, names_chain, List.foldl_map]

/-- Every term a successful `parse_term` produces is a left-folded chain of
variables with good names. -/
theorem term_ok_shape (f : Nat) (input rem : List Char) (t : Term)
    (h : parse_term_fuel f input = PResult.ok rem t) :
    ∃ (first : List Char) (rest : List (List Char)),
      good_chars first ∧ (∀ cs ∈ rest, good_chars cs)
      ∧ t = names_chain first rest := by
  cases f with
  | zero => simp [parse_term_fuel] at h
  | succ f =>
    rw [parse_term_fuel] at h
    cases ha : parse_application_fuel f (space0 input) with
    | err e =>
      rw [ha] at h
      dsimp only at h
      cases h
    | ok rem1 t1 =>
      rw [ha] at h
      dsimp only at h
      injection h with h1 h2
      exact h2 ▸ application_ok_shape f (space0 input) rem1 t1 ha

/-- A left fold of applications over a non-abstraction seed is not an
abstraction. -/
theorem foldl_app_not_abs (l : List (List Char)) : ∀ (acc : Term),
    (∀ p b, acc ≠ Term.Abs p b) → ∀ p b,
    l.foldl (fun a cs => Term.App a (Term.Var (String.mk cs))) acc ≠ Term.Abs p b := by
  induction l with
  | nil => intro acc h p b; exact h p b
  | cons cs l ih =>
    intro acc h p b
    simp only [List.foldl_cons]
    exact ih (Term.App acc (Term.Var (String.mk cs)))
      (fun q c hh => Term.noConfusion hh) p b

/-- A variable chain is never an abstraction. -/
theorem names_chain_not_abs (first : List Char) (rest : List (List Char))
    (p : String) (b : Term) : names_chain first rest ≠ Term.Abs p b := by
  unfold names_chain
  exact foldl_app_not_abs rest (Term.Var (String.mk first))
    (fun q c hh => Term.noConfusion hh) p b

/-- `render_rest` distributes over append. -/
theorem render_rest_append (l1 l2 : List (List Char)) :
    render_rest (l1 ++ l2) = render_rest l1 ++ render_rest l2 := by
  induction l1 with
  | nil => rfl
  | cons cs l ih => simp only [List.cons_append, render_rest, List.append_eq, ih, List.append_assoc]

/-- Appending one more atom to a chain applies the chain to it. -/
theorem names_chain_snoc (first : List Char) (rest : List (List Char)) (cs : List Char) :
    names_chain first (rest ++ [cs]) =
      Term.App (names_chain first rest) (Term.Var (String.mk cs)) := by
  unfold names_chain
  rw [List.foldl_append]
  rfl

/-- Appending one more atom to the rendering appends a space and the name. -/
theorem render_names_snoc (first : List Char) (rest : List (List Char)) (cs : List Char) :
    render_names first (rest ++ [cs]) = render_names first rest ++ (' ' :: cs) := by
  unfold render_names
  rw [render_rest_append, List.append_assoc]
  simp [render_rest]

/-- String append is list append on the underlying data. -/
theorem mk_append_mk (a b : List Char) :
    String.mk a ++ String.mk b = String.mk (a ++ b) := rfl

/-- Pretty-printing an application of a non-abstraction to a variable inserts
no parentheses. -/
theorem pp_app_var (t : Term) (hna : ∀ p b, t ≠ Term.Abs p b) (cs : List Char) :
    (Term.App t (Term.Var (String.mk cs))).pretty_print =
      t.pretty_print ++ " " ++ String.mk cs := by
  cases t with
  | Var v => rfl
  | Abs p b => exact absurd rfl (hna p b)
  | App t1 t2 => rfl

/-- Pretty-printing a variable chain renders exactly the names separated by
single spaces. -/
theorem pp_chain (first : List Char) (rest : List (List Char)) :
    (names_chain first rest).pretty_print = String.mk (render_names first rest) := by
  induction rest using List.reverseRecOn with
  | nil => simp [names_chain, render_names, render_rest, Term.pretty_print]
  | append_singleton rest cs ih =>
    rw [names_chain_snoc, pp_app_var _ (names_chain_not_abs first rest) cs, ih,
      render_names_snoc]
    rw [show (" " : String) = String.mk [' '] from rfl, mk_append_mk, mk_append_mk]
    exact congrArg String.mk (by simp)

/-- The rendering of the rest atoms is at least as long as their count. -/
theorem render_rest_length_ge (rest : List (List Char)) :
    rest.length ≤ (render_rest rest).length := by
  induction rest with
  | nil => exact Nat.le_refl 0
  | cons cs r ih =>
    simp only [render_rest, List.length_cons, List.length_append]
    omega

/-- Claim C1: for every `Term` produced by a successful `parse_term`,
parsing its pretty-printed rendering succeeds, consumes the whole rendering,
and returns a structurally equal term.  (Because `parse_var` fails with
`Err::Failure` and `alt` does not recover from it, the image of a successful
parse consists exactly of left-folded chains of variables, whose rendering
is the names separated by single spaces — and that rendering re-parses to
the same chain.) -/
theorem c1_roundtrip (s : String) (rem : List Char) (t : Term)
    (h : parse_term s = PResult.ok rem t) :
    parse_term t.pretty_print = PResult.ok [] t := by
  unfold parse_term at h
  obtain ⟨first, rest, hg, hr, rfl⟩ := term_ok_shape _ _ _ _ h
  unfold parse_term
  have hd : (Term.pretty_print (names_chain first rest)).data = render_names first rest := by
    rw [pp_chain]
  have hl : (Term.pretty_print (names_chain first rest)).length =
      (render_names first rest).length := by
    rw [show (Term.pretty_print (names_chain first rest)).length =
      (Term.pretty_print (names_chain first rest)).data.length from rfl, hd]
  rw [hd, hl]
  apply term_render first rest _ ?_ hg hr
  have h1 := render_rest_length_ge rest
  have h2 : (render_names first rest).length =
      first.length + (render_rest rest).length := by
    simp [render_names, List.length_append]
  omega

/-- Witness for C1: `"f x y"` parses to a chain, and the chain's rendering
re-parses to the same chain. -/
theorem c1_roundtrip_witness :
    parse_term "f x y" = PResult.ok []
      (Term.App (Term.App (Term.Var "f") (Term.Var "x")) (Term.Var "y"))
    ∧ parse_term (Term.pretty_print
        (Term.App (Term.App (Term.Var "f") (Term.Var "x")) (Term.Var "y"))) =
      PResult.ok []
        (Term.App (Term.App (Term.Var "f") (Term.Var "x")) (Term.Var "y")) :=
  ⟨by decide, c1_roundtrip "f x y" []
    (Term.App (Term.App (Term.Var "f") (Term.Var "x")) (Term.Var "y")) (by decide)⟩

/-- Claim C3: `"f x y"` parses to the left-associated tree
`App(App(Var "f", Var "x"), Var "y")`; moreover every successful parse
yields a left-folded chain of variable atoms (`names_chain` is a left fold,
so a right-associated tree is never produced), and a rendered sequence of
any number of variable atoms parses to its left fold. -/
theorem c3_left_assoc :
    parse_term "f x y" = PResult.ok []
      (Term.App (Term.App (Term.Var "f") (Term.Var "x")) (Term.Var "y"))
    ∧ (∀ s rem t, parse_term s = PResult.ok rem t →
        ∃ (first : List Char) (rest : List (List Char)),
          good_chars first ∧ (∀ cs ∈ rest, good_chars cs)
          ∧ t = names_chain first rest)
    ∧ (∀ first rest f, rest.length + 4 ≤ f → good_chars first →
        (∀ cs ∈ rest, good_chars cs) →
        parse_term_fuel f (render_names first rest) =
          PResult.ok [] (names_chain first rest)) := by
  refine ⟨by decide, ?_, ?_⟩
  · intro s rem t h
    unfold parse_term at h
    exact term_ok_shape _ _ _ _ h
  · intro first rest f hf hg hr
    exact term_render first rest f hf hg hr

/-- Witness for C3 at `"f x y"` and at the rendered atom list
`["f", "x", "y"]`. -/
theorem c3_left_assoc_witness :
    (∃ (first : List Char) (rest : List (List Char)),
      good_chars first ∧ (∀ cs ∈ rest, good_chars cs)
      ∧ Term.App (Term.App (Term.Var "f") (Term.Var "x")) (Term.Var "y") =
          names_chain first rest)
    ∧ parse_term_fuel 6 (render_names ['f'] [['x'], ['y']]) =
        PResult.ok [] (names_chain ['f'] [['x'], ['y']]) :=
  ⟨c3_left_assoc.2.1 "f x y" []
      (Term.App (Term.App (Term.Var "f") (Term.Var "x")) (Term.Var "y")) (by decide),
   c3_left_assoc.2.2 ['f'] [['x'], ['y']] 6 (by decide) (by decide) (by decide)⟩

end DepenLang
